import Mathlib

/-!
Verification of the backup orchestration engine (`backup.py`).

This file shallowly embeds the pure logic of the program and proves or
refutes the behavioural claims about it: the date-based retention
algorithm (`BackupFrequency.should_keep`), the storage/save loop of
`run_backup`, the configuration `deep_merge`, the duplicate `full_name`
check of `_load_conf`, archive-name filtering in `list_archives`,
glob-based target selection (`glob_target`), the memoized write probe
(`WriteTestCache` / `check_folder_writable`), and the `Report.by_server`
view.

Python `datetime.date` values are embedded as triples of integers with
the proleptic-Gregorian ordinal (`datetime.date.toordinal`) made
explicit; date subtraction and `timedelta` arithmetic become integer
arithmetic on ordinals, and date comparison is the lexicographic
comparison on (year, month, day) that `datetime.date` implements.
-/

namespace Backuper

/-- Embeds `datetime.date`: a calendar date as (year, month, day).
All fields are integers, as in Python. -/
structure Date where
  year : Int
  month : Int
  day : Int
deriving DecidableEq, Repr

/-- Gregorian leap-year test, as in `calendar.isleap` / `datetime`. -/
def isLeap (y : Int) : Bool :=
  y % 4 == 0 && (y % 100 != 0 || y % 400 == 0)

/-- Number of days in a month (`datetime._days_in_month`). -/
def daysInMonth (y m : Int) : Int :=
  if m = 2 then (if isLeap y then 29 else 28)
  else if m = 4 ∨ m = 6 ∨ m = 9 ∨ m = 11 then 30
  else 31

/-- Days in all years before year `y` (`datetime._days_before_year`);
Python `//` is floor division, hence `Int.fdiv`. -/
def daysBeforeYear (y : Int) : Int :=
  365 * (y - 1) + (y - 1).fdiv 4 - (y - 1).fdiv 100 + (y - 1).fdiv 400

/-- Days in year `y` strictly before month `m`
(`datetime._days_before_month`): cumulative month table plus the leap
adjustment for months after February. -/
def daysBeforeMonth (y m : Int) : Int :=
  (if m ≤ 1 then 0 else if m ≤ 2 then 31 else if m ≤ 3 then 59
   else if m ≤ 4 then 90 else if m ≤ 5 then 120 else if m ≤ 6 then 151
   else if m ≤ 7 then 181 else if m ≤ 8 then 212 else if m ≤ 9 then 243
   else if m ≤ 10 then 273 else if m ≤ 11 then 304 else 334)
  + (if 2 < m ∧ isLeap y then 1 else 0)

/-- `datetime.date.toordinal`: day 1 is 0001-01-01.  Subtraction of two
dates in Python yields a `timedelta` whose `.days` is the difference of
the ordinals. -/
def Date.toOrdinal (d : Date) : Int :=
  daysBeforeYear d.year + daysBeforeMonth d.year d.month + d.day

/-- `datetime.date.isoweekday`: 1 = Monday ... 7 = Sunday.
0001-01-01 (ordinal 1) is a Monday. -/
def Date.isoweekday (d : Date) : Int :=
  (d.toOrdinal - 1) % 7 + 1

/-- `datetime.date.__le__`: dates compare lexicographically on
(year, month, day). -/
def Date.le (a b : Date) : Prop :=
  a.year < b.year ∨ (a.year = b.year ∧
    (a.month < b.month ∨ (a.month = b.month ∧ a.day ≤ b.day)))

instance : DecidablePred (fun p : Date × Date => Date.le p.1 p.2) :=
  fun _ => by unfold Date.le; infer_instance

instance (a b : Date) : Decidable (Date.le a b) := by
  unfold Date.le; infer_instance

/-- The retention policy descriptor (`BackupFrequency.__init__`): one
integer per tier, `-1` = ALL, `0` = NO (the NONE sentinel), a positive
value = keep that many units. -/
structure BackupFrequency where
  day : Int
  week : Int
  month : Int
  year : Int
deriving DecidableEq, Repr

/-- `BackupFrequency.ALL_VALUE`. -/
def ALL_VALUE : Int := -1

/-- `BackupFrequency.NO_VALUE`. -/
def NO_VALUE : Int := 0

/-- `BackupFrequency.is_empty`: no tier differs from NO_VALUE. -/
def BackupFrequency.is_empty (f : BackupFrequency) : Bool :=
  !([f.day, f.week, f.month, f.year].any (fun v => v != NO_VALUE))

/-- The first day of the month that begins the month-tier retention
window: Python builds
`date(now.year + floor((now.month - month)/12), ((now.month - month) % 12) + 1, 1)`
with floor division and nonnegative modulo. -/
def monthLastAllowed (m : Int) (now : Date) : Date :=
  { year := now.year + (now.month - m).fdiv 12
    month := (now.month - m) % 12 + 1
    day := 1 }

/-- `BackupFrequency.should_keep(date)` with the process-wide `now`
(`TimeReference.get().date()`) made an explicit argument.  The Python
body is a sequence of early returns; each `return True` site becomes
one branch of this `if` chain, guarded by the conjunction of the
enclosing conditions, and the final `return False` is the last branch.
Date subtraction and `now - timedelta(days=δ)` are ordinal arithmetic;
the week-tier date comparison is the ordinal comparison (equivalent to
`datetime`'s field-wise order on valid dates), the month/year tiers
compare the field-wise constructed date lexicographically as
`datetime.date.__ge__` does. -/
def BackupFrequency.should_keep (f : BackupFrequency) (now date : Date) : Bool :=
  if f.day = ALL_VALUE then true
  else if f.day ≠ NO_VALUE ∧ now.toOrdinal - date.toOrdinal + 1 ≤ f.day then true
  else if date.isoweekday = 1 ∧ f.week = ALL_VALUE then true
  else if date.isoweekday = 1 ∧ f.week ≠ NO_VALUE ∧
      now.toOrdinal - (now.isoweekday + 7 * f.week - 8) ≤ date.toOrdinal then true
  else if date.day = 1 ∧ f.month = ALL_VALUE then true
  else if date.day = 1 ∧ f.month ≠ NO_VALUE ∧
      Date.le (monthLastAllowed f.month now) date then true
  else if date.day = 1 ∧ date.month = 1 ∧ f.year = ALL_VALUE then true
  else if date.day = 1 ∧ date.month = 1 ∧ f.year ≠ NO_VALUE ∧
      Date.le ⟨now.year - f.year + 1, 1, 1⟩ date then true
  else false

/-- `MemoryStorage.should_save`: `self._freq.should_keep(TimeReference.get().date())`,
i.e. `should_keep` of the fixed reference date against itself. -/
def should_save (f : BackupFrequency) (today : Date) : Bool :=
  f.should_keep today today

/-! ### The storage/save loop of `run_backup` -/

/-- One storage as `run_backup`'s save loop observes it: the value its
`should_save()` returns for this run, and the outcome of `save` on this
run's artifact (`Except.error` embeds a raised exception). -/
structure StorageModel where
  shouldSaveB : Bool
  saveResult : Except String Unit

/-- The save loop shared by `FileAction.run_backup` and
`DbAction.run_backup`:
`for storage in self.storage_list: if not storage.should_save(): continue; storage.save(...)`.
Returns the storages on which `save` was actually invoked, in order,
and the overall outcome.  An exception raised by one `save` is not
caught inside the loop, so it ends the loop at that storage. -/
def runBackupSaves : List StorageModel → List StorageModel × Except String Unit
  | [] => ([], Except.ok ())
  | s :: rest =>
    if s.shouldSaveB = false then runBackupSaves rest
    else
      match s.saveResult with
      | Except.error e => ([s], Except.error e)
      | Except.ok _ =>
        let r := runBackupSaves rest
        (s :: r.1, r.2)

/-! ### Association lists

Python `dict`s keyed by strings are embedded as association lists in
insertion order; `alistLookup` is `d[k]` / `k in d`, `alistSet` is
`d[k] = v`, `appendAt` is the
`if k not in d: d[k] = []` / `d[k].append(x)` idiom. -/

/-- Dictionary lookup. -/
def alistLookup {α : Type} : List (String × α) → String → Option α
  | [], _ => none
  | (k, v) :: rest, key => if k = key then some v else alistLookup rest key

/-- Dictionary assignment `d[k] = v`: overwrite the existing entry in
place, or append a new one. -/
def alistSet {α : Type} : List (String × α) → String → α → List (String × α)
  | [], key, v => [(key, v)]
  | (k, w) :: rest, key, v =>
    if k = key then (k, v) :: rest else (k, w) :: alistSet rest key v

/-- `if key not in d: d[key] = []` followed by `d[key].append(x)`. -/
def appendAt {α : Type} : List (String × List α) → String → α → List (String × List α)
  | [], key, x => [(key, [x])]
  | (k, l) :: rest, key, x =>
    if k = key then (k, l ++ [x]) :: rest else (k, l) :: appendAt rest key x

/-! ### WriteTestCache and the memoized write probes -/

/-- Result of one `Action.check_folder_writable` /
`GlacierStorage._check_glacier_access` call: the cache dictionary after
the call, the returned diagnostics, and whether a real write probe was
performed (the `try` body ran). -/
structure ProbeResult where
  cache : List (String × Bool)
  diagnostics : List String
  probed : Bool

/-- `Action.check_folder_writable(folder)` against an explicit cache
state (`WriteTestCache._folder_cache`).  `probe` is the outcome the
real write-then-cleanup probe would have: `none` = success, `some e` =
the raised error's text. -/
def check_folder_writable (cache : List (String × Bool)) (probe : Option String)
    (folder : String) : ProbeResult :=
  match alistLookup cache folder with
  | none =>
    match probe with
    | none => { cache := alistSet cache folder true, diagnostics := [], probed := true }
    | some e =>
      { cache := alistSet cache folder false
        diagnostics := ["Unable to write to folder " ++ folder ++ ": " ++ e]
        probed := true }
  | some b =>
    if b then { cache := cache, diagnostics := [], probed := false }
    else
      { cache := cache
        diagnostics := ["Unable to write to folder " ++ folder ++ " (see previous errors)"]
        probed := false }

/-- `GlacierStorage._check_glacier_access` against
`WriteTestCache._glacier_vault_cache`: same memoization shape, keyed by
the vault identity. -/
def check_glacier_access (cache : List (String × Bool)) (probe : Option String)
    (vault : String) : ProbeResult :=
  match alistLookup cache vault with
  | none =>
    match probe with
    | none => { cache := alistSet cache vault true, diagnostics := [], probed := true }
    | some e =>
      { cache := alistSet cache vault false
        diagnostics := ["Unable to write to glacier vault " ++ vault ++ ": " ++ e]
        probed := true }
  | some b =>
    if b then { cache := cache, diagnostics := [], probed := false }
    else
      { cache := cache
        diagnostics := ["Unable to write to glacier vault " ++ vault]
        probed := false }

/-- Number of real write probes performed on `key` by a sequence of
`check_folder_writable` calls (each call = folder and the outcome its
probe would have), starting from `cache`. -/
def countProbes (cache : List (String × Bool)) :
    List (String × Option String) → String → Nat
  | [], _ => 0
  | (folder, probe) :: rest, key =>
    let r := check_folder_writable cache probe folder
    (if r.probed ∧ folder = key then 1 else 0) + countProbes r.cache rest key

/-! ### Report -/

/-- `Report`: three per-server message dictionaries. -/
structure Report where
  server_issues : List (String × List String)
  server_warnings : List (String × List String)
  server_success : List (String × List String)

/-- `Report()` constructor. -/
def Report.empty : Report := ⟨[], [], []⟩

/-- `Report.add_issue`. -/
def Report.add_issue (r : Report) (server msg : String) : Report :=
  { r with server_issues := appendAt r.server_issues server msg }

/-- `Report.add_warning`. -/
def Report.add_warning (r : Report) (server msg : String) : Report :=
  { r with server_warnings := appendAt r.server_warnings server msg }

/-- `Report.add_success`. -/
def Report.add_success (r : Report) (server msg : String) : Report :=
  { r with server_success := appendAt r.server_success server msg }

/-- One mutation of a `Report`, used to quantify over arbitrary
interleavings of the three `add_*` calls. -/
inductive RepOp where
  | issue (server msg : String)
  | warning (server msg : String)
  | success (server msg : String)

/-- Dispatch one `add_*` call. -/
def repStep (r : Report) (op : RepOp) : Report :=
  match op with
  | RepOp.issue s m => r.add_issue s m
  | RepOp.warning s m => r.add_warning s m
  | RepOp.success s m => r.add_success s m

/-- Replay a call sequence against `Report()`. -/
def applyOps (ops : List RepOp) : Report :=
  ops.foldl repStep Report.empty

/-- `if server not in result.keys(): result[server] = []` inside
`by_server`. -/
def ensureKey (m : List (String × List (String × String))) (key : String) :
    List (String × List (String × String)) :=
  match alistLookup m key with
  | some _ => m
  | none => m ++ [(key, [])]

/-- One of the three loops of `Report.by_server`: fold a category
dictionary into the result, tagging every message with `level`. -/
def addCategory (res : List (String × List (String × String))) (level : String)
    (cat : List (String × List String)) : List (String × List (String × String)) :=
  cat.foldl
    (fun res p => p.2.foldl (fun r m => appendAt r p.1 (level, m)) (ensureKey res p.1))
    res

/-- `Report.by_server`: issues first (level `"error"`), then warnings
(level `"warning"`), then successes (level `"server"`, as in the
source). -/
def Report.by_server (r : Report) : List (String × List (String × String)) :=
  addCategory (addCategory (addCategory [] "error" r.server_issues)
    "warning" r.server_warnings) "server" r.server_success

/-- The issue messages a call sequence adds for `server`, in call
order. -/
def issuesOf (ops : List RepOp) (server : String) : List String :=
  ops.filterMap fun op =>
    match op with
    | RepOp.issue s m => if s = server then some m else none
    | _ => none

/-- The warning messages a call sequence adds for `server`, in call
order. -/
def warningsOf (ops : List RepOp) (server : String) : List String :=
  ops.filterMap fun op =>
    match op with
    | RepOp.warning s m => if s = server then some m else none
    | _ => none

/-- The success messages a call sequence adds for `server`, in call
order. -/
def successesOf (ops : List RepOp) (server : String) : List String :=
  ops.filterMap fun op =>
    match op with
    | RepOp.success s m => if s = server then some m else none
    | _ => none

/-! ### Actions, the duplicate full_name check, and glob targeting -/

/-- The variant-specific data of an action: `FileAction` carries the
remote folder, `DbAction` the database name and the engine tag
(`db_type`). -/
inductive ActionKind where
  | file (remote_folder : String)
  | db (database : String) (db_type : String)
deriving DecidableEq, Repr

/-- An `Action` as the selector and the duplicate check observe it:
server name, `prefix` (field `pfx` here), short name, variant data. -/
structure ActionM where
  server_name : String
  pfx : String
  name : String
  kind : ActionKind
deriving DecidableEq, Repr

/-- `Action.full_name = self.prefix + "_" + self._name`. -/
def ActionM.full_name (a : ActionM) : String :=
  a.pfx ++ "_" ++ a.name

/-- The duplicate-`full_name` detection of `BackupConfig._load_conf`:
the double loop over all ordered pairs of actions, skipping the pair
when both members are the same object (the same list position, since
every append to `actions` is a freshly constructed object). -/
def hasDupFullName (actions : List ActionM) : Bool :=
  (List.range actions.length).any fun i =>
    (List.range actions.length).any fun j =>
      decide (i ≠ j) && (actions[i]?.map ActionM.full_name == actions[j]?.map ActionM.full_name)

/-- The tail of `BackupConfig._load_conf`: raise `ConfigError` when two
distinct actions share a `full_name`, otherwise return the action list
unchanged. -/
def checkUniqueFullNames (actions : List ActionM) : Except String (List ActionM) :=
  if hasDupFullName actions then
    Except.error "Two actions have the same final archive name"
  else Except.ok actions

/-! ### fnmatch

`fnmatch.fnmatch(name, pattern)` as the Python standard library defines
it on a case-sensitive filesystem: `*` matches any run, `?` any single
character, `[seq]` a character class (leading `!` negates, a `]` right
after the opening is literal, `a-b` is a code-point range, an
unterminated `[` is a literal `[`). -/

/-- Scan a class body up to the closing `]`; `none` when there is no
closing bracket. -/
def scanClose : List Char → Option (List Char × List Char)
  | [] => none
  | ']' :: rest => some ([], rest)
  | c :: rest => (scanClose rest).map fun p => (c :: p.1, p.2)

/-- Parse the text after an opening `[`: negation flag, class content,
remainder of the pattern. -/
def parseClass (p : List Char) : Option (Bool × List Char × List Char) :=
  match p with
  | '!' :: q =>
    match q with
    | ']' :: rest => (scanClose rest).map fun r => (true, ']' :: r.1, r.2)
    | _ => (scanClose q).map fun r => (true, r.1, r.2)
  | q =>
    match q with
    | ']' :: rest => (scanClose rest).map fun r => (false, ']' :: r.1, r.2)
    | _ => (scanClose q).map fun r => (false, r.1, r.2)

/-- Does a character match a class body (ranges and literals)? -/
def matchClass : List Char → Char → Bool
  | [], _ => false
  | a :: '-' :: b :: rest, c => (decide (a ≤ c) && decide (c ≤ b)) || matchClass rest c
  | a :: rest, c => (a == c) || matchClass rest c

/-- Glob matching of a pattern against a string, both as character
lists. -/
def fnmatchChars : List Char → List Char → Bool
  | [], s => s.isEmpty
  | '*' :: p, s =>
    fnmatchChars p s ||
      (match s with
       | [] => false
       | _ :: s' => fnmatchChars ('*' :: p) s')
  | '?' :: p, s =>
    (match s with
     | [] => false
     | _ :: s' => fnmatchChars p s')
  | '[' :: p, s =>
    (match parseClass p with
     | none =>
       match s with
       | [] => false
       | c :: s' => ('[' == c) && fnmatchChars p s'
     | some (neg, content, rest) =>
       match s with
       | [] => false
       | c :: s' => (neg != matchClass content c) && fnmatchChars rest s')
  | c :: p, s =>
    (match s with
     | [] => false
     | c' :: s' => (c == c') && fnmatchChars p s')
termination_by p s => (s.length, p.length)

/-- `fnmatch.fnmatch(name, pattern)`. -/
def fnm (name : String) (pat : List Char) : Bool :=
  fnmatchChars pat name.toList

/-- The with-colon branch of `glob_target`: the nested `if`/`elif`
chain, action by action. -/
def globColonFilter (actions : List ActionM) (p1 p2 : List Char) : List ActionM :=
  match actions with
  | [] => []
  | a :: rest =>
    let tail := globColonFilter rest p1 p2
    if fnm a.server_name p1 || fnm a.pfx p1 then
      if fnm a.name p2 || fnm a.full_name p2 then a :: tail
      else
        match a.kind with
        | ActionKind.file rf => if fnm rf p2 then a :: tail else tail
        | ActionKind.db dbn dbt =>
          if fnm dbn p2 then a :: tail
          else if fnm dbt p2 then a :: tail
          else tail
    else tail

/-- The no-colon branch of `glob_target`: one `elif` chain per
action. -/
def globPlainFilter (actions : List ActionM) (ident : List Char) : List ActionM :=
  match actions with
  | [] => []
  | a :: rest =>
    let tail := globPlainFilter rest ident
    if fnm a.server_name ident then a :: tail
    else if fnm a.name ident then a :: tail
    else if fnm a.full_name ident then a :: tail
    else if fnm a.pfx ident then a :: tail
    else
      match a.kind with
      | ActionKind.file rf => if fnm rf ident then a :: tail else tail
      | ActionKind.db dbn dbt =>
        if fnm dbn ident then a :: tail
        else if fnm dbt ident then a :: tail
        else tail

/-- Split a character list at its first `':'` (the list is known to
contain one). -/
def splitFirstColon : List Char → List Char × List Char
  | [] => ([], [])
  | ':' :: rest => ([], rest)
  | c :: rest =>
    let r := splitFirstColon rest
    (c :: r.1, r.2)

/-- `glob_target(conf, identifier)` over the resolved action list.
`identifier.split(":", 2)` unpacked into two variables raises
`ValueError` when the identifier holds two or more colons; an empty
result raises `RuntimeError("Unknown target ...")`. -/
def glob_target (actions : List ActionM) (identifier : List Char) :
    Except String (List ActionM) :=
  if identifier.contains ':' then
    if 2 ≤ identifier.count ':' then
      Except.error "ValueError: too many values to unpack"
    else
      let q := splitFirstColon identifier
      let res := globColonFilter actions q.1 q.2
      if res.isEmpty then Except.error ("Unknown target " ++ String.mk identifier)
      else Except.ok res
  else
    let res := globPlainFilter actions identifier
    if res.isEmpty then Except.error ("Unknown target " ++ String.mk identifier)
    else Except.ok res

/-- The claim's own selection predicate for `pattern1:pattern2`
identifiers, written from the specification's words: `pattern1`
glob-matches the server name or the prefix, and `pattern2` glob-matches
one of name, full name, remote folder (file actions), database name or
engine tag (db actions). -/
def specColonPred (p1 p2 : List Char) (a : ActionM) : Bool :=
  (fnm a.server_name p1 || fnm a.pfx p1) &&
    (fnm a.name p2 || fnm a.full_name p2 ||
      (match a.kind with
       | ActionKind.file rf => fnm rf p2
       | ActionKind.db dbn dbt => fnm dbn p2 || fnm dbt p2))

/-! ### Archive-name filtering in list_archives -/

/-- Does `s` start with `pre`? (`str.startswith`.) -/
def startsWithL : List Char → List Char → Bool
  | _, [] => true
  | [], _ :: _ => false
  | c :: s, p :: pre => (c == p) && startsWithL s pre

/-- `int` of a run of decimal digits. -/
def digitsToInt (l : List Char) : Int :=
  l.foldl (fun acc c => 10 * acc + ((c.toNat : Int) - 48)) 0

/-- Would `datetime.date(year, month, day)` succeed?  (`MINYEAR = 1`,
`MAXYEAR = 9999`, day within the month.) -/
def validYMD (y m d : Int) : Bool :=
  decide (1 ≤ y) && decide (y ≤ 9999) && decide (1 ≤ m) && decide (m ≤ 12) &&
    decide (1 ≤ d) && decide (d ≤ daysInMonth y m)

/-- The `YYYYMMDD` part of a filename parses as a valid calendar
date. -/
def validArchiveDate (f : List Char) : Bool :=
  validYMD (digitsToInt (f.take 4)) (digitsToInt ((f.drop 4).take 2))
    (digitsToInt ((f.drop 6).take 2))

/-- The archive-naming invariant: `<8 digits>_<rest>` with a non-empty
rest and a valid `YYYYMMDD` date.  (Length at least 10 makes the rest
non-empty; digits cannot be `_`, so the explicit no-`_`-in-the-date
check of the source is implied.) -/
def validArchiveName (f : List Char) : Bool :=
  decide (10 ≤ f.length) && (f[8]? == some '_') && !((f.take 8).contains '_') &&
    (f.take 8).all Char.isDigit && validArchiveDate f

/-- `if action_fullname and not archive_name.startswith(action_fullname + "."): continue`:
skip when the requested full name is truthy (present and non-empty) and
the name part does not start with it followed by a dot. -/
def skipByFullname (fn : Option (List Char)) (archive_name : List Char) : Bool :=
  match fn with
  | none => false
  | some a => !a.isEmpty && !(startsWithL archive_name (a ++ ['.']))

/-- `LocalFolderStorage.list_archives` over the folder's plain-file
names: the loop with its `continue` guards, in source order. -/
def localListArchives (files : List (List Char)) (fn : Option (List Char)) :
    List (List Char) :=
  match files with
  | [] => []
  | f :: rest =>
    if f.length < 10 ∨ f[8]? ≠ some '_' ∨ (f.take 8).contains '_' then
      localListArchives rest fn
    else if ¬ (f.take 8).all Char.isDigit then localListArchives rest fn
    else if ¬ validArchiveDate f then localListArchives rest fn
    else if skipByFullname fn (f.drop 9) then localListArchives rest fn
    else f :: localListArchives rest fn

/-- `str.split("_", 1)` when it must produce two pieces: `none` when
the string holds no underscore (Python's two-variable unpacking then
raises `ValueError`). -/
def splitFirstUnderscore : List Char → Option (List Char × List Char)
  | [] => none
  | '_' :: rest => some ([], rest)
  | c :: rest => (splitFirstUnderscore rest).map fun p => (c :: p.1, p.2)

/-- `GlacierStorage.list_archives` over the vault index entries: split
each name at its first underscore and filter only by the requested
action full name — no naming-invariant check at all. -/
def glacierListArchives (files : List (List Char)) (fn : Option (List Char)) :
    Except String (List (List Char)) :=
  match files with
  | [] => Except.ok []
  | f :: rest =>
    match splitFirstUnderscore f with
    | none => Except.error "ValueError: need more than 1 value to unpack"
    | some p =>
      if skipByFullname fn p.2 then glacierListArchives rest fn
      else (glacierListArchives rest fn).map fun l => f :: l

/-! ### deep_merge -/

/-- A parsed configuration node: Python `None`, a primitive scalar, a
sequence, or a mapping (keys in insertion order). -/
inductive Value where
  | null : Value
  | scalar : String → Value
  | seq : List Value → Value
  | map : List (String × Value) → Value

mutual

/-- `deep_merge(src, new)`: the branch order follows the source — `new
is None`, `src is None`, `is_array(src)` (extend with a sequence,
append anything else), `is_dict(src)` (a sequence absorbs the mapping
as an appended element, a mapping merges key by key, anything else
pairs up), and finally the scalar fallback `[src, new]`.  The function
is total: no combination raises. -/
def deep_merge : Value → Value → Value
  | src, Value.null => src
  | Value.null, new => new
  | Value.seq l, Value.seq m => Value.seq (l ++ m)
  | Value.seq l, new => Value.seq (l ++ [new])
  | Value.map l, Value.seq m => Value.seq (m ++ [Value.map l])
  | Value.map l, Value.map m => Value.map (mergeMapList l m)
  | Value.map l, new => Value.seq [Value.map l, new]
  | src, new => Value.seq [src, new]

/-- `for key, val in new.items(): ...` inside the mapping/mapping case
of `deep_merge`: recursively merge at keys already present, append new
keys. -/
def mergeMapList : List (String × Value) → List (String × Value) → List (String × Value)
  | res, [] => res
  | res, (k, v) :: rest =>
    match alistLookup res k with
    | some old => mergeMapList (alistSet res k (deep_merge old v)) rest
    | none => mergeMapList (res ++ [(k, v)]) rest

end

/-!
## Theorems
-/

/-- C1: with the week, month and year tiers at NONE and the day tier at
a positive `N`, `should_keep(reference_date, reference_date - k days)`
is true for every `k` in `[0, N-1]` and false for `k = N`.  The
snapshot `reference_date - k days` is any date whose ordinal is `k`
less than the reference date's. -/
theorem day_tier_keeps_exactly_N_most_recent_days (ref snap : Date) (N k : Int)
    (hN : 0 < N) (hdiff : ref.toOrdinal - snap.toOrdinal = k) :
    (k < N → BackupFrequency.should_keep ⟨N, 0, 0, 0⟩ ref snap = true) ∧
    (k = N → BackupFrequency.should_keep ⟨N, 0, 0, 0⟩ ref snap = false) := by
  simp only [BackupFrequency.should_keep, ALL_VALUE, NO_VALUE, hdiff]
  norm_num
  constructor
  · intro hk
    omega
  · intro hk
    omega

/-- Witness for C1: day tier 3, reference 2024-06-15; the snapshot one
day back is kept, the snapshot three days back is not. -/
theorem day_tier_keeps_exactly_N_most_recent_days_witness :
    BackupFrequency.should_keep ⟨3, 0, 0, 0⟩ ⟨2024, 6, 15⟩ ⟨2024, 6, 14⟩ = true ∧
    BackupFrequency.should_keep ⟨3, 0, 0, 0⟩ ⟨2024, 6, 15⟩ ⟨2024, 6, 12⟩ = false :=
  ⟨(day_tier_keeps_exactly_N_most_recent_days ⟨2024, 6, 15⟩ ⟨2024, 6, 14⟩ 3 1
      (by decide) (by decide)).1 (by decide),
   (day_tier_keeps_exactly_N_most_recent_days ⟨2024, 6, 15⟩ ⟨2024, 6, 12⟩ 3 3
      (by decide) (by decide)).2 rfl⟩

/-- C2 counterexample: the claim "`should_save()` is true iff at least
one retention tier is non-NONE, for every reference date" fails.  With
only the week tier set (to ALL) and today = Tuesday 2024-01-02 the
policy is not empty, yet `should_save()` is false, because the week
tier is consulted only for snapshots dated a Monday and the tested
snapshot is today itself. -/
theorem should_save_not_iff_nonempty_cex :
    should_save ⟨0, -1, 0, 0⟩ ⟨2024, 1, 2⟩ = false ∧
    BackupFrequency.is_empty ⟨0, -1, 0, 0⟩ = false := by
  decide

/-- C2 amended: `should_save()` is `should_keep(today, today)`; it is
false for every today when all four tiers are NONE, and true for every
today when the day tier is non-NONE (ALL or positive), but for a
policy whose only non-NONE tiers are week/month/year its value depends
on today. -/
theorem should_save_iff_keep_today (f : BackupFrequency) (today : Date) :
    should_save f today = f.should_keep today today ∧
    (f.is_empty = true → should_save f today = false) ∧
    (f.day = ALL_VALUE ∨ 0 < f.day → should_save f today = true) := by
  refine ⟨rfl, ?_, ?_⟩
  · intro h
    have hd : f.day = 0 ∧ f.week = 0 ∧ f.month = 0 ∧ f.year = 0 := by
      simp [BackupFrequency.is_empty] at h
      exact h
    simp only [should_save, BackupFrequency.should_keep, ALL_VALUE, NO_VALUE,
      hd.1, hd.2.1, hd.2.2.1, hd.2.2.2]
    simp
  · intro h
    simp only [ALL_VALUE] at h
    simp only [should_save, BackupFrequency.should_keep, ALL_VALUE, NO_VALUE]
    rcases h with h | h
    · rw [if_pos h]
    · rw [if_neg (by omega : ¬ f.day = -1),
        if_pos (by constructor; omega; omega)]

/-- Witness for C2 amended: at the empty policy `should_save` is false
for 2024-01-02, and with day tier 5 it is true. -/
theorem should_save_iff_keep_today_witness :
    should_save ⟨0, 0, 0, 0⟩ ⟨2024, 1, 2⟩ = false ∧
    should_save ⟨5, 0, 0, 0⟩ ⟨2024, 1, 2⟩ = true :=
  ⟨(should_save_iff_keep_today ⟨0, 0, 0, 0⟩ ⟨2024, 1, 2⟩).2.1 (by decide),
   (should_save_iff_keep_today ⟨5, 0, 0, 0⟩ ⟨2024, 1, 2⟩).2.2 (Or.inr (by decide))⟩

/-- C10: Python `None` is a two-sided identity of `deep_merge`: the
first two checks of the source return the other argument whenever one
side is `None`. -/
theorem deep_merge_null_identity (x : Value) :
    deep_merge x Value.null = x ∧ deep_merge Value.null x = x := by
  constructor
  · cases x <;> rfl
  · cases x <;> rfl

/-- C3 counterexample: with two storages that both want to save and a
first `save` that raises, the save loop of `run_backup` invokes `save`
only on the first storage and surfaces the failure at once — the
second storage, though its `should_save()` is true, is never attempted,
contradicting the claim that one storage's failure does not prevent the
remaining attempts. -/
theorem save_failure_skips_remaining_storages_cex :
    runBackupSaves [⟨true, Except.error "boom"⟩, ⟨true, Except.ok ()⟩] =
      ([⟨true, Except.error "boom"⟩], Except.error "boom") ∧
    (⟨true, Except.ok ()⟩ : StorageModel).shouldSaveB = true :=
  ⟨rfl, rfl⟩

/-- C3 amended: after staging and packaging succeed, `run_backup`
attempts `save` on the owned storages whose `should_save()` is true, in
declaration order, as long as every attempt succeeds; but the first
failing `save` propagates immediately, aborting the save attempts on
all storages after it (the caller catches the error per action). -/
theorem run_backup_save_loop_spec (l : List StorageModel) :
    ((∀ s ∈ l, s.shouldSaveB = true → s.saveResult = Except.ok ()) →
      runBackupSaves l = (l.filter (fun s => s.shouldSaveB), Except.ok ())) ∧
    (∀ (pre post : List StorageModel) (s₁ : StorageModel) (e : String),
      l = pre ++ s₁ :: post →
      (∀ s ∈ pre, s.shouldSaveB = true → s.saveResult = Except.ok ()) →
      s₁.shouldSaveB = true → s₁.saveResult = Except.error e →
      runBackupSaves l = (pre.filter (fun s => s.shouldSaveB) ++ [s₁], Except.error e)) := by
  constructor
  · induction l with
    | nil => intro _; rfl
    | cons s rest ih =>
      intro h
      have hrec := ih fun t ht => h t (List.mem_cons_of_mem _ ht)
      by_cases hs : s.shouldSaveB = false
      · simp [runBackupSaves, hs, List.filter_cons, hrec]
      · have hb : s.shouldSaveB = true := by
          cases hsb : s.shouldSaveB
          · exact absurd hsb hs
          · rfl
        have hok : s.saveResult = Except.ok () := h s (List.mem_cons_self _ _) hb
        simp [runBackupSaves, hs, hok, List.filter_cons, hb, hrec]
  · intro pre post s₁ e hl hpre hb he
    subst hl
    induction pre with
    | nil =>
      simp only [List.nil_append, runBackupSaves, hb, he]
      simp
    | cons p pre' ih =>
      have hp := hpre p (List.mem_cons_self _ _)
      have hrec := ih fun t ht => hpre t (List.mem_cons_of_mem _ ht)
      by_cases hps : p.shouldSaveB = false
      · simp [runBackupSaves, hps, List.filter_cons, hrec]
      · have hpb : p.shouldSaveB = true := by
          cases hsb : p.shouldSaveB
          · exact absurd hsb hps
          · rfl
        have hpok : p.saveResult = Except.ok () := hp hpb
        simp [runBackupSaves, hps, hpok, List.filter_cons, hpb, hrec]

/-- Witness for C3 amended: a succeeding storage followed by a skipped
one saves exactly once and succeeds; a single failing storage is
attempted and its error surfaces. -/
theorem run_backup_save_loop_spec_witness :
    runBackupSaves [⟨true, Except.ok ()⟩, ⟨false, Except.error "x"⟩] =
      ([⟨true, Except.ok ()⟩], Except.ok ()) ∧
    runBackupSaves [⟨true, Except.error "boom"⟩] =
      ([⟨true, Except.error "boom"⟩], Except.error "boom") := by
  constructor
  · have h := (run_backup_save_loop_spec [⟨true, Except.ok ()⟩, ⟨false, Except.error "x"⟩]).1 (by
      intro s hs hsb
      simp at hs
      rcases hs with rfl | rfl
      · rfl
      · simp at hsb)
    simpa using h
  · have h := (run_backup_save_loop_spec [⟨true, Except.error "boom"⟩]).2 [] []
      ⟨true, Except.error "boom"⟩ "boom" rfl (by simp) rfl rfl
    simpa using h

/-- Updating a key and reading it back. -/
theorem alistLookup_alistSet_self {α : Type} (c : List (String × α)) (k : String) (v : α) :
    alistLookup (alistSet c k v) k = some v := by
  induction c with
  | nil => simp [alistSet, alistLookup]
  | cons p rest ih =>
    by_cases h : p.1 = k
    · simp [alistSet, alistLookup, h]
    · simp [alistSet, alistLookup, h, ih]

/-- Updating one key leaves the others unchanged. -/
theorem alistLookup_alistSet_ne {α : Type} (c : List (String × α)) (k key : String) (v : α)
    (h : k ≠ key) : alistLookup (alistSet c k v) key = alistLookup c key := by
  induction c with
  | nil => simp [alistSet, alistLookup, h]
  | cons p rest ih =>
    by_cases hp : p.1 = k
    · simp [alistSet, alistLookup, hp, h]
    · simp [alistSet, alistLookup, hp, ih]

/-- A `check_folder_writable` call never changes other keys' cache
entries. -/
theorem check_cache_other (cache : List (String × Bool)) (probe : Option String)
    (folder key : String) (h : folder ≠ key) :
    alistLookup (check_folder_writable cache probe folder).cache key =
      alistLookup cache key := by
  unfold check_folder_writable
  cases hc : alistLookup cache folder with
  | none =>
    cases probe with
    | none => simp [alistLookup_alistSet_ne _ _ _ _ h]
    | some e => simp [alistLookup_alistSet_ne _ _ _ _ h]
  | some b =>
    by_cases hb : b
    · simp [hb]
    · simp [hb]

/-- After any `check_folder_writable` call the probed folder is
cached. -/
theorem check_cache_self (cache : List (String × Bool)) (probe : Option String)
    (folder : String) :
    (alistLookup (check_folder_writable cache probe folder).cache folder).isSome = true := by
  unfold check_folder_writable
  cases hc : alistLookup cache folder with
  | none =>
    cases probe with
    | none => simp [alistLookup_alistSet_self]
    | some e => simp [alistLookup_alistSet_self]
  | some b =>
    by_cases hb : b
    · simp [hb, hc]
    · simp [hb, hc]

/-- The real probe runs exactly when the folder is untested. -/
theorem check_probed (cache : List (String × Bool)) (probe : Option String)
    (folder : String) :
    (check_folder_writable cache probe folder).probed =
      (alistLookup cache folder).isNone := by
  unfold check_folder_writable
  cases hc : alistLookup cache folder with
  | none =>
    cases probe with
    | none => simp
    | some e => simp
  | some b =>
    by_cases hb : b
    · simp [hb]
    · simp [hb]

/-- A key already in the cache is never probed again, whatever the
call sequence. -/
theorem countProbes_zero (calls : List (String × Option String)) :
    ∀ (cache : List (String × Bool)) (key : String),
      (alistLookup cache key).isSome = true → countProbes cache calls key = 0 := by
  induction calls with
  | nil => intro cache key _; rfl
  | cons c rest ih =>
    intro cache key h
    obtain ⟨folder, probe⟩ := c
    unfold countProbes
    by_cases hf : folder = key
    · subst hf
      have hp : (check_folder_writable cache probe folder).probed = false := by
        rw [check_probed]
        cases hl : alistLookup cache folder
        · rw [hl] at h; simp at h
        · simp
      simp [hp, ih _ _ (check_cache_self cache probe folder)]
    · have hcache :
          (alistLookup (check_folder_writable cache probe folder).cache key).isSome = true := by
        rw [check_cache_other cache probe folder key hf]
        exact h
      simp [hf, ih _ _ hcache]

/-- Any call sequence performs at most one real probe per key (zero
when the key is already cached). -/
theorem countProbes_le_one (calls : List (String × Option String)) :
    ∀ (cache : List (String × Bool)) (key : String),
      countProbes cache calls key ≤ if (alistLookup cache key).isSome then 0 else 1 := by
  induction calls with
  | nil => intro cache key; simp [countProbes]
  | cons c rest ih =>
    intro cache key
    obtain ⟨folder, probe⟩ := c
    unfold countProbes
    by_cases hkey : (alistLookup cache key).isSome = true
    · rw [if_pos hkey]
      by_cases hf : folder = key
      · subst hf
        have hp : (check_folder_writable cache probe folder).probed = false := by
          rw [check_probed]
          cases hl : alistLookup cache folder
          · rw [hl] at hkey; simp at hkey
          · simp
        simp [hp, countProbes_zero _ _ _ (check_cache_self cache probe folder)]
      · have hcache :
            (alistLookup (check_folder_writable cache probe folder).cache key).isSome = true := by
          rw [check_cache_other cache probe folder key hf]; exact hkey
        simp [hf, countProbes_zero _ _ _ hcache]
    · rw [if_neg hkey]
      by_cases hf : folder = key
      · subst hf
        have h0 := countProbes_zero rest _ _ (check_cache_self cache probe folder)
        dsimp only
        rw [h0]
        split <;> omega
      · have hcache : (alistLookup (check_folder_writable cache probe folder).cache key).isSome
            = (alistLookup cache key).isSome := by
          rw [check_cache_other cache probe folder key hf]
        have hrec := ih (check_folder_writable cache probe folder).cache key
        rw [hcache, if_neg hkey] at hrec
        simp [hf]
        omega

/-- C8: per probe key, at most one real write probe happens in a run
no matter how many `check_writable` calls are interleaved (none at all
once the key is cached), and a call that finds the key cached leaves
the cache unchanged, performs no probe, and returns `[]` after a cached
success or exactly one diagnostic string after a cached failure — for
folder keys and glacier vault keys alike. -/
theorem write_probe_at_most_once :
    ∀ (cache : List (String × Bool)) (calls : List (String × Option String)) (key : String),
      countProbes cache calls key ≤ (if (alistLookup cache key).isSome then 0 else 1) ∧
      (∀ (b : Bool) (probe : Option String),
        alistLookup cache key = some b →
        check_folder_writable cache probe key =
          ⟨cache, if b then []
            else ["Unable to write to folder " ++ key ++ " (see previous errors)"], false⟩) ∧
      (∀ (b : Bool) (probe : Option String),
        alistLookup cache key = some b →
        check_glacier_access cache probe key =
          ⟨cache, if b then [] else ["Unable to write to glacier vault " ++ key], false⟩) := by
  intro cache calls key
  refine ⟨countProbes_le_one calls cache key, ?_, ?_⟩
  · intro b probe h
    unfold check_folder_writable
    rw [h]
    cases b
    · simp
    · simp
  · intro b probe h
    unfold check_glacier_access
    rw [h]
    cases b
    · simp
    · simp

/-- Witness for C8: a cached folder success yields no diagnostics and
no probe; a cached vault failure yields the single cached-failure
diagnostic and no probe. -/
theorem write_probe_at_most_once_witness :
    check_folder_writable [("d", true)] none "d" = ⟨[("d", true)], [], false⟩ ∧
    check_glacier_access [("v", false)] none "v" =
      ⟨[("v", false)], ["Unable to write to glacier vault v"], false⟩ := by
  constructor
  · have h := (write_probe_at_most_once [("d", true)] [] "d").2.1 true none (by simp [alistLookup])
    simpa using h
  · have h := (write_probe_at_most_once [("v", false)] [] "v").2.2 false none (by simp [alistLookup])
    simpa using h

/-- The double loop of the duplicate check finds a pair exactly when
the list of full names has a repetition. -/
theorem hasDupFullName_iff (actions : List ActionM) :
    hasDupFullName actions = true ↔ ¬ (actions.map ActionM.full_name).Nodup := by
  unfold hasDupFullName
  rw [List.nodup_iff_getElem?_ne_getElem?]
  simp only [List.any_eq_true, List.mem_range, Bool.and_eq_true, decide_eq_true_eq, beq_iff_eq]
  push_neg
  constructor
  · rintro ⟨i, hi, j, hj, hij, heq⟩
    rcases Nat.lt_or_ge i j with h | h
    · exact ⟨i, j, h, by simpa using hj, by simp [List.getElem?_map, heq]⟩
    · have hji : j < i := lt_of_le_of_ne h (Ne.symm hij)
      exact ⟨j, i, hji, by simpa using hi, by simp [List.getElem?_map, heq]⟩
  · rintro ⟨i, j, hij, hjlen, heq⟩
    have hj : j < actions.length := by simpa using hjlen
    refine ⟨i, lt_trans hij hj, j, hj, Nat.ne_of_lt hij, ?_⟩
    simpa [List.getElem?_map] using heq

/-- C5: the resolver's final check raises `ConfigError` exactly when
two distinct resolved actions share a `full_name`, and the action list
is returned unchanged exactly when all full names are pairwise
distinct — so no returned list ever contains a duplicate
`full_name`. -/
theorem duplicate_full_name_raises_config_error (actions : List ActionM) :
    (checkUniqueFullNames actions = Except.ok actions ↔
      (actions.map ActionM.full_name).Nodup) ∧
    ((∃ e, checkUniqueFullNames actions = Except.error e) ↔
      ¬ (actions.map ActionM.full_name).Nodup) := by
  by_cases h : hasDupFullName actions = true
  · have hn := (hasDupFullName_iff actions).1 h
    simp [checkUniqueFullNames, h, hn]
  · rw [Bool.not_eq_true] at h
    have hnd : (actions.map ActionM.full_name).Nodup := by
      by_contra hc
      have := (hasDupFullName_iff actions).2 hc
      rw [h] at this
      cases this
    simp [checkUniqueFullNames, h, hnd]

/-- C6 counterexample: the vault index entry `bad_name.tgz` violates
the `<8 digits>_<rest>` naming invariant, yet
`GlacierStorage.list_archives` returns it — the listing-for-every-
backend claim fails on the Glacier backend, which performs no
invariant check at all. -/
theorem glacier_list_ignores_naming_invariant_cex :
    glacierListArchives [String.toList "bad_name.tgz"] none =
      Except.ok [String.toList "bad_name.tgz"] ∧
    validArchiveName (String.toList "bad_name.tgz") = false := by
  constructor
  · rfl
  · decide

/-- Unfolding of the naming invariant into its propositional parts. -/
theorem validArchiveName_iff (f : List Char) :
    validArchiveName f = true ↔
      (10 ≤ f.length ∧ f[8]? = some '_' ∧ '_' ∉ f.take 8 ∧
        (∀ c ∈ f.take 8, c.isDigit = true) ∧ validArchiveDate f = true) := by
  simp [validArchiveName, and_assoc]

/-- A string containing an underscore always splits. -/
theorem splitFirstUnderscore_isSome (f : List Char) (h : '_' ∈ f) :
    (splitFirstUnderscore f).isSome = true := by
  induction f with
  | nil => cases h
  | cons c rest ih =>
    by_cases hc : c = '_'
    · subst hc; rfl
    · have hm : '_' ∈ rest := by
        cases h with
        | head => exact absurd rfl hc
        | tail _ h => exact h
      have hrec := ih hm
      cases ho : splitFirstUnderscore rest with
      | none => rw [ho] at hrec; simp at hrec
      | some p => simp [splitFirstUnderscore, hc, ho]

/-- `LocalFolderStorage.list_archives` keeps exactly the names that
satisfy the invariant and pass the optional action filter. -/
theorem localListArchives_filter (files : List (List Char)) (fn : Option (List Char)) :
    localListArchives files fn =
      files.filter (fun f => validArchiveName f && !skipByFullname fn (f.drop 9)) := by
  induction files with
  | nil => rfl
  | cons f rest ih =>
    unfold localListArchives
    by_cases h1 : f.length < 10 ∨ f[8]? ≠ some '_' ∨ (f.take 8).contains '_'
    · rw [if_pos h1, ih, List.filter_cons]
      have hv : validArchiveName f = false := by
        rw [← Bool.not_eq_true]
        intro hvt
        rw [validArchiveName_iff] at hvt
        obtain ⟨ha, hb, hc', _, _⟩ := hvt
        rcases h1 with h | h | h
        · omega
        · exact h hb
        · exact hc' (by simpa using h)
      simp [hv]
    · rw [if_neg h1]
      push_neg at h1
      obtain ⟨hlen, h8, hu⟩ := h1
      have hlen' : 10 ≤ f.length := by omega
      have hu' : '_' ∉ f.take 8 := by simpa using hu
      by_cases h2 : (f.take 8).all Char.isDigit
      · by_cases h3 : validArchiveDate f
        · have hv : validArchiveName f = true := by
            rw [validArchiveName_iff]
            exact ⟨hlen', h8, hu', by simpa using h2, h3⟩
          by_cases h4 : skipByFullname fn (f.drop 9) = true
          · rw [if_neg (by simp [h2]), if_neg (by simp [h3]), if_pos h4, ih, List.filter_cons]
            simp [h4]
          · rw [if_neg (by simp [h2]), if_neg (by simp [h3]),
              if_neg (show ¬ (skipByFullname fn (f.drop 9) = true) from h4), ih,
              List.filter_cons]
            rw [Bool.not_eq_true] at h4
            simp [hv, h4]
        · have hv : validArchiveName f = false := by
            rw [← Bool.not_eq_true]
            intro hvt
            rw [validArchiveName_iff] at hvt
            exact h3 hvt.2.2.2.2
          rw [if_neg (by simp [h2]), if_pos (by simpa using h3), ih, List.filter_cons]
          simp [hv]
      · have hv : validArchiveName f = false := by
          rw [← Bool.not_eq_true]
          intro hvt
          rw [validArchiveName_iff] at hvt
          exact h2 (by simpa using hvt.2.2.2.1)
        rw [if_pos (by simpa using h2), ih, List.filter_cons]
        simp [hv]

/-- With no action filter, the Glacier listing returns every index
entry (underscore-splittable or the call raises): no invariant
filtering happens. -/
theorem glacierListArchives_all (files : List (List Char)) (h : ∀ f ∈ files, '_' ∈ f) :
    glacierListArchives files none = Except.ok files := by
  induction files with
  | nil => rfl
  | cons f rest ih =>
    have hf := h f (List.mem_cons_self _ _)
    have hs := splitFirstUnderscore_isSome f hf
    cases ho : splitFirstUnderscore f with
    | none => rw [ho] at hs; simp at hs
    | some p =>
      have hrec := ih fun t ht => h t (List.mem_cons_of_mem _ ht)
      simp [glacierListArchives, ho, skipByFullname, hrec, Except.map]

/-- C6 amended: `LocalFolderStorage.list_archives` returns exactly the
filenames satisfying the `<8 digits>_<rest>`/valid-date invariant that
pass the optional action filter (so every returned name is a managed
archive); but `GlacierStorage.list_archives` performs no invariant
check: with no action filter it returns every index entry as is. -/
theorem list_archives_filtering_spec (files : List (List Char)) (fn : Option (List Char)) :
    localListArchives files fn =
      files.filter (fun f => validArchiveName f && !skipByFullname fn (f.drop 9)) ∧
    (∀ f ∈ localListArchives files fn, validArchiveName f = true) ∧
    ((∀ f ∈ files, '_' ∈ f) → glacierListArchives files none = Except.ok files) := by
  refine ⟨localListArchives_filter files fn, ?_, glacierListArchives_all files⟩
  intro f hf
  rw [localListArchives_filter] at hf
  simp only [List.mem_filter, Bool.and_eq_true] at hf
  exact hf.2.1

/-- Witness for C6 amended: the folder with the spec's three example
names lists only `20240101_web1_app.tgz`; the vault index entry
`a_b.tgz` comes back unfiltered. -/
theorem list_archives_filtering_spec_witness :
    localListArchives [String.toList "20240101_web1_app.tgz", String.toList "bad_name.tgz",
      String.toList "20240101stray.tgz"] none = [String.toList "20240101_web1_app.tgz"] ∧
    glacierListArchives [String.toList "a_b.tgz"] none =
      Except.ok [String.toList "a_b.tgz"] := by
  constructor
  · have h := (list_archives_filtering_spec [String.toList "20240101_web1_app.tgz",
      String.toList "bad_name.tgz", String.toList "20240101stray.tgz"] none).1
    rw [h]
    decide
  · exact (list_archives_filtering_spec [String.toList "a_b.tgz"] none).2.2 (by decide)

/-- Appending to a key and reading it back. -/
theorem alistLookup_appendAt_self {α : Type} (m : List (String × List α)) (k : String) (x : α) :
    alistLookup (appendAt m k x) k = some ((alistLookup m k).getD [] ++ [x]) := by
  induction m with
  | nil => simp [appendAt, alistLookup]
  | cons p rest ih =>
    obtain ⟨k', l⟩ := p
    by_cases h : k' = k
    · subst h; simp [appendAt, alistLookup]
    · simp [appendAt, alistLookup, h, ih]

/-- Appending to one key leaves the others unchanged. -/
theorem alistLookup_appendAt_ne {α : Type} (m : List (String × List α)) (k s : String) (x : α)
    (h : k ≠ s) : alistLookup (appendAt m k x) s = alistLookup m s := by
  induction m with
  | nil => simp [appendAt, alistLookup, h]
  | cons p rest ih =>
    obtain ⟨k', l⟩ := p
    by_cases hk : k' = k
    · subst hk; simp [appendAt, alistLookup, h]
    · simp [appendAt, alistLookup, hk, ih]

/-- Lookup misses exactly the keys outside the dictionary. -/
theorem alistLookup_eq_none_iff {α : Type} (m : List (String × α)) (k : String) :
    alistLookup m k = none ↔ k ∉ m.map Prod.fst := by
  induction m with
  | nil => simp [alistLookup]
  | cons p rest ih =>
    obtain ⟨k', v⟩ := p
    by_cases h : k' = k
    · subst h; simp [alistLookup]
    · simp [alistLookup, h, ih, Ne.symm h]

/-- Lookup in a concatenation tries the left part first. -/
theorem alistLookup_append {α : Type} (m m' : List (String × α)) (k : String) :
    alistLookup (m ++ m') k =
      (match alistLookup m k with
       | some v => some v
       | none => alistLookup m' k) := by
  induction m with
  | nil => simp [alistLookup]
  | cons p rest ih =>
    obtain ⟨k', v⟩ := p
    by_cases h : k' = k
    · simp [alistLookup, h]
    · simp [alistLookup, h, ih]

/-- Ensuring a key does not change any entry list. -/
theorem ensureKey_lookup_getD (r : List (String × List (String × String))) (k s : String) :
    (alistLookup (ensureKey r k) s).getD [] = (alistLookup r s).getD [] := by
  unfold ensureKey
  cases h : alistLookup r k with
  | some l => rfl
  | none =>
    rw [alistLookup_append]
    cases hs : alistLookup r s with
    | some v => simp
    | none =>
      by_cases hk : k = s <;> simp [alistLookup, hk]

/-- Folding one category entry appends all its tagged messages to the
entry of its server. -/
theorem foldl_appendAt_self (msgs : List String) (k lvl : String) :
    ∀ r₀ : List (String × List (String × String)),
      (alistLookup (msgs.foldl (fun r m => appendAt r k (lvl, m)) r₀) k).getD [] =
        (alistLookup r₀ k).getD [] ++ msgs.map (fun m => (lvl, m)) := by
  induction msgs with
  | nil => intro r₀; simp
  | cons m rest ih =>
    intro r₀
    simp only [List.foldl_cons, List.map_cons]
    rw [ih (appendAt r₀ k (lvl, m)), alistLookup_appendAt_self]
    simp

/-- Folding one category entry leaves other servers untouched. -/
theorem foldl_appendAt_ne (msgs : List String) (k lvl s : String) (h : k ≠ s) :
    ∀ r₀ : List (String × List (String × String)),
      alistLookup (msgs.foldl (fun r m => appendAt r k (lvl, m)) r₀) s = alistLookup r₀ s := by
  induction msgs with
  | nil => intro r₀; simp
  | cons m rest ih =>
    intro r₀
    simp only [List.foldl_cons]
    rw [ih (appendAt r₀ k (lvl, m)), alistLookup_appendAt_ne _ _ _ _ h]

/-- One `by_server` pass over a category dictionary with distinct
servers appends exactly that server's tagged messages. -/
theorem addCategory_lookup (cat : List (String × List String)) (lvl s : String)
    (hnd : (cat.map Prod.fst).Nodup) :
    ∀ res, (alistLookup (addCategory res lvl cat) s).getD [] =
      (alistLookup res s).getD [] ++ ((alistLookup cat s).getD []).map (fun m => (lvl, m)) := by
  induction cat with
  | nil => intro res; simp [addCategory, alistLookup]
  | cons p rest ih =>
    obtain ⟨k, msgs⟩ := p
    simp only [List.map_cons, List.nodup_cons] at hnd
    obtain ⟨hk, hnd'⟩ := hnd
    intro res
    unfold addCategory
    simp only [List.foldl_cons]
    have hstep : ∀ res', List.foldl
        (fun res p => p.2.foldl (fun r m => appendAt r p.1 (lvl, m)) (ensureKey res p.1))
        res' rest = addCategory res' lvl rest := fun _ => rfl
    rw [hstep, ih hnd']
    by_cases hs : k = s
    · subst hs
      have hrest : alistLookup rest k = none := (alistLookup_eq_none_iff rest k).2 hk
      rw [hrest, foldl_appendAt_self, ensureKey_lookup_getD]
      simp [alistLookup]
    · rw [foldl_appendAt_ne _ _ _ _ hs]
      have : alistLookup (ensureKey res k) s = alistLookup res s := by
        unfold ensureKey
        cases h : alistLookup res k with
        | some l => rfl
        | none =>
          rw [alistLookup_append]
          cases hres : alistLookup res s with
          | some v => simp
          | none => simp [alistLookup, hs]
      rw [this]
      simp [alistLookup, hs]

/-- `appendAt` preserves the key set except for adding a missing
key. -/
theorem map_fst_appendAt {α : Type} (m : List (String × List α)) (k : String) (x : α) :
    (appendAt m k x).map Prod.fst =
      if k ∈ m.map Prod.fst then m.map Prod.fst else m.map Prod.fst ++ [k] := by
  induction m with
  | nil => simp [appendAt]
  | cons p rest ih =>
    obtain ⟨k', l⟩ := p
    by_cases h : k' = k
    · subst h; simp [appendAt]
    · simp only [appendAt, if_neg h, List.map_cons]
      rw [ih]
      by_cases hm : k ∈ rest.map Prod.fst
      · simp [hm, Ne.symm h]
      · simp [hm, Ne.symm h]

/-- `appendAt` keeps server keys pairwise distinct. -/
theorem nodup_keys_appendAt {α : Type} (m : List (String × List α)) (k : String) (x : α)
    (h : (m.map Prod.fst).Nodup) : ((appendAt m k x).map Prod.fst).Nodup := by
  rw [map_fst_appendAt]
  by_cases hm : k ∈ m.map Prod.fst
  · simpa [hm] using h
  · simp [hm, List.nodup_append, h]

/-- Replaying calls accumulates exactly the issue messages per server,
in call order. -/
theorem foldl_repStep_issues (ops : List RepOp) (s : String) :
    ∀ r₀ : Report,
      (alistLookup (List.foldl repStep r₀ ops).server_issues s).getD [] =
        (alistLookup r₀.server_issues s).getD [] ++ issuesOf ops s := by
  induction ops with
  | nil => intro r₀; simp [issuesOf]
  | cons op rest ih =>
    intro r₀
    simp only [List.foldl_cons]
    rw [ih (repStep r₀ op)]
    cases op with
    | issue s' m =>
      by_cases hs : s' = s
      · subst hs
        simp [repStep, Report.add_issue, issuesOf, alistLookup_appendAt_self,
          List.filterMap_cons]
      · simp [repStep, Report.add_issue, issuesOf, alistLookup_appendAt_ne _ _ _ _ hs, hs,
          List.filterMap_cons]
    | warning s' m => simp [repStep, Report.add_warning, issuesOf, List.filterMap_cons]
    | success s' m => simp [repStep, Report.add_success, issuesOf, List.filterMap_cons]

/-- Replaying calls accumulates exactly the warning messages per
server, in call order. -/
theorem foldl_repStep_warnings (ops : List RepOp) (s : String) :
    ∀ r₀ : Report,
      (alistLookup (List.foldl repStep r₀ ops).server_warnings s).getD [] =
        (alistLookup r₀.server_warnings s).getD [] ++ warningsOf ops s := by
  induction ops with
  | nil => intro r₀; simp [warningsOf]
  | cons op rest ih =>
    intro r₀
    simp only [List.foldl_cons]
    rw [ih (repStep r₀ op)]
    cases op with
    | warning s' m =>
      by_cases hs : s' = s
      · subst hs
        simp [repStep, Report.add_warning, warningsOf, alistLookup_appendAt_self,
          List.filterMap_cons]
      · simp [repStep, Report.add_warning, warningsOf, alistLookup_appendAt_ne _ _ _ _ hs, hs,
          List.filterMap_cons]
    | issue s' m => simp [repStep, Report.add_issue, warningsOf, List.filterMap_cons]
    | success s' m => simp [repStep, Report.add_success, warningsOf, List.filterMap_cons]

/-- Replaying calls accumulates exactly the success messages per
server, in call order. -/
theorem foldl_repStep_successes (ops : List RepOp) (s : String) :
    ∀ r₀ : Report,
      (alistLookup (List.foldl repStep r₀ ops).server_success s).getD [] =
        (alistLookup r₀.server_success s).getD [] ++ successesOf ops s := by
  induction ops with
  | nil => intro r₀; simp [successesOf]
  | cons op rest ih =>
    intro r₀
    simp only [List.foldl_cons]
    rw [ih (repStep r₀ op)]
    cases op with
    | success s' m =>
      by_cases hs : s' = s
      · subst hs
        simp [repStep, Report.add_success, successesOf, alistLookup_appendAt_self,
          List.filterMap_cons]
      · simp [repStep, Report.add_success, successesOf, alistLookup_appendAt_ne _ _ _ _ hs, hs,
          List.filterMap_cons]
    | issue s' m => simp [repStep, Report.add_issue, successesOf, List.filterMap_cons]
    | warning s' m => simp [repStep, Report.add_warning, successesOf, List.filterMap_cons]

/-- The three category dictionaries of a replayed report keep pairwise
distinct server keys. -/
theorem foldl_repStep_nodup (ops : List RepOp) :
    ∀ r₀ : Report,
      (r₀.server_issues.map Prod.fst).Nodup →
      (r₀.server_warnings.map Prod.fst).Nodup →
      (r₀.server_success.map Prod.fst).Nodup →
      ((List.foldl repStep r₀ ops).server_issues.map Prod.fst).Nodup ∧
        ((List.foldl repStep r₀ ops).server_warnings.map Prod.fst).Nodup ∧
        ((List.foldl repStep r₀ ops).server_success.map Prod.fst).Nodup := by
  induction ops with
  | nil => intro r₀ h1 h2 h3; exact ⟨h1, h2, h3⟩
  | cons op rest ih =>
    intro r₀ h1 h2 h3
    simp only [List.foldl_cons]
    cases op with
    | issue s' m =>
      exact ih _ (nodup_keys_appendAt _ _ _ h1) h2 h3
    | warning s' m =>
      exact ih _ h1 (nodup_keys_appendAt _ _ _ h2) h3
    | success s' m =>
      exact ih _ h1 h2 (nodup_keys_appendAt _ _ _ h3)

/-- C9: for every call sequence and server, `by_server` holds that
server's entries from all three categories, each tagged with its
level, with all issues first (in call order), then all warnings, then
all successes — independent of how the `add_issue`/`add_warning`/
`add_success` calls were interleaved. -/
theorem by_server_orders_categories (ops : List RepOp) (server : String) :
    (alistLookup ((applyOps ops).by_server) server).getD [] =
      (issuesOf ops server).map (fun m => ("error", m)) ++
        (warningsOf ops server).map (fun m => ("warning", m)) ++
        (successesOf ops server).map (fun m => ("server", m)) := by
  have hnd := foldl_repStep_nodup ops Report.empty (by simp [Report.empty])
    (by simp [Report.empty]) (by simp [Report.empty])
  unfold Report.by_server applyOps
  rw [addCategory_lookup _ _ _ hnd.2.2, addCategory_lookup _ _ _ hnd.2.1,
    addCategory_lookup _ _ _ hnd.1]
  have hi := foldl_repStep_issues ops server Report.empty
  have hw := foldl_repStep_warnings ops server Report.empty
  have hs := foldl_repStep_successes ops server Report.empty
  rw [hi, hw, hs]
  simp [Report.empty, alistLookup, List.append_assoc]

/-- `alistSet` preserves the key set except for adding a missing
key. -/
theorem map_fst_alistSet {α : Type} (m : List (String × α)) (k : String) (v : α) :
    (alistSet m k v).map Prod.fst =
      if k ∈ m.map Prod.fst then m.map Prod.fst else m.map Prod.fst ++ [k] := by
  induction m with
  | nil => simp [alistSet]
  | cons p rest ih =>
    obtain ⟨k', w⟩ := p
    by_cases h : k' = k
    · subst h; simp [alistSet]
    · simp only [alistSet, if_neg h, List.map_cons]
      rw [ih]
      by_cases hm : k ∈ rest.map Prod.fst
      · simp [hm, Ne.symm h]
      · simp [hm, Ne.symm h]

/-- Appending a single differently-keyed entry keeps lookups. -/
theorem alistLookup_append_single_ne {α : Type} (m : List (String × α)) (k k1 : String) (v : α)
    (h : k1 ≠ k) : alistLookup (m ++ [(k1, v)]) k = alistLookup m k := by
  rw [alistLookup_append]
  cases hm : alistLookup m k with
  | some w => simp
  | none => simp [alistLookup, h]

/-- The key set of a mapping merge is the union of the two key
sets. -/
theorem mem_keys_mergeMapList (m : List (String × Value)) :
    ∀ (res : List (String × Value)) (k : String),
      k ∈ (mergeMapList res m).map Prod.fst ↔
        k ∈ res.map Prod.fst ∨ k ∈ m.map Prod.fst := by
  induction m with
  | nil => intro res k; simp [mergeMapList]
  | cons p rest ih =>
    obtain ⟨k1, v1⟩ := p
    intro res k
    unfold mergeMapList
    cases hl : alistLookup res k1 with
    | some old =>
      rw [ih]
      have hkeys : (alistSet res k1 (deep_merge old v1)).map Prod.fst = res.map Prod.fst := by
        rw [map_fst_alistSet]
        have : k1 ∈ res.map Prod.fst := by
          by_contra hc
          rw [← alistLookup_eq_none_iff] at hc
          rw [hc] at hl
          cases hl
        simp [this]
      rw [hkeys]
      constructor
      · rintro (h | h)
        · exact Or.inl h
        · exact Or.inr (List.mem_cons_of_mem _ h)
      · rintro (h | h)
        · exact Or.inl h
        · rcases List.mem_cons.1 h with h | h
          · subst h
            left
            by_contra hc
            rw [← alistLookup_eq_none_iff] at hc
            rw [hc] at hl
            cases hl
          · exact Or.inr h
    | none =>
      rw [ih]
      simp only [List.map_append, List.map_cons, List.map_nil]
      constructor
      · rintro (h | h)
        · rcases List.mem_append.1 h with h | h
          · exact Or.inl h
          · simp at h
            subst h
            exact Or.inr (List.mem_cons_self _ _)
        · exact Or.inr (List.mem_cons_of_mem _ h)
      · rintro (h | h)
        · exact Or.inl (List.mem_append.2 (Or.inl h))
        · rcases List.mem_cons.1 h with h | h
          · subst h
            exact Or.inl (List.mem_append.2 (Or.inr (by simp)))
          · exact Or.inr h

/-- Merging leaves values untouched at keys the new mapping does not
hold. -/
theorem mergeMapList_lookup_not_in_new (m : List (String × Value)) :
    ∀ (res : List (String × Value)) (k : String),
      alistLookup m k = none →
      alistLookup (mergeMapList res m) k = alistLookup res k := by
  induction m with
  | nil => intro res k _; rfl
  | cons p rest ih =>
    obtain ⟨k1, v1⟩ := p
    intro res k hm
    have hk1 : k1 ≠ k := by
      intro hc
      subst hc
      simp [alistLookup] at hm
    have hrest : alistLookup rest k = none := by
      simpa [alistLookup, hk1] using hm
    unfold mergeMapList
    cases hl : alistLookup res k1 with
    | some old =>
      rw [ih _ _ hrest, alistLookup_alistSet_ne _ _ _ _ hk1]
    | none =>
      rw [ih _ _ hrest, alistLookup_append_single_ne _ _ _ _ hk1]

/-- At a key both mappings hold, the merge stores the recursive
`deep_merge` of the two values. -/
theorem mergeMapList_lookup_both (m : List (String × Value)) :
    ∀ (res : List (String × Value)) (k : String) (vl vm : Value),
      (m.map Prod.fst).Nodup →
      alistLookup res k = some vl → alistLookup m k = some vm →
      alistLookup (mergeMapList res m) k = some (deep_merge vl vm) := by
  induction m with
  | nil => intro res k vl vm _ _ hm; simp [alistLookup] at hm
  | cons p rest ih =>
    obtain ⟨k1, v1⟩ := p
    intro res k vl vm hnd hres hm
    simp only [List.map_cons, List.nodup_cons] at hnd
    obtain ⟨hk1, hnd'⟩ := hnd
    unfold mergeMapList
    by_cases hk : k1 = k
    · subst hk
      have hv : vm = v1 := by
        simp [alistLookup] at hm
        exact hm.symm
      subst hv
      rw [hres]
      have hrest : alistLookup rest k1 = none := (alistLookup_eq_none_iff rest k1).2 hk1
      rw [mergeMapList_lookup_not_in_new rest _ _ hrest,
        alistLookup_alistSet_self]
    · have hm' : alistLookup rest k = some vm := by
        simpa [alistLookup, hk] using hm
      cases hl : alistLookup res k1 with
      | some old =>
        exact ih _ _ _ _ hnd' (by rw [alistLookup_alistSet_ne _ _ _ _ hk]; exact hres) hm'
      | none =>
        exact ih _ _ _ _ hnd' (by rw [alistLookup_append_single_ne _ _ _ _ hk]; exact hres) hm'

/-- C4: merging two mappings yields a mapping whose key set is the
union of both and whose value at a key present in both is the
recursive `deep_merge` of the two values; merging two sequences
concatenates them; merging a mapping with a sequence (either way)
appends the mapping as an element of the sequence; a mismatched
scalar/mapping pair becomes the two-element sequence `[old, new]`.
`deep_merge` is a total function, so no combination raises. -/
theorem deep_merge_spec (l m : List (String × Value)) (s t : List Value) (a : String) :
    (deep_merge (Value.map l) (Value.map m) = Value.map (mergeMapList l m)) ∧
    (∀ k, k ∈ (mergeMapList l m).map Prod.fst ↔ k ∈ l.map Prod.fst ∨ k ∈ m.map Prod.fst) ∧
    ((m.map Prod.fst).Nodup → ∀ k vl vm,
      alistLookup l k = some vl → alistLookup m k = some vm →
      alistLookup (mergeMapList l m) k = some (deep_merge vl vm)) ∧
    (deep_merge (Value.seq s) (Value.seq t) = Value.seq (s ++ t)) ∧
    (deep_merge (Value.map l) (Value.seq s) = Value.seq (s ++ [Value.map l])) ∧
    (deep_merge (Value.seq s) (Value.map m) = Value.seq (s ++ [Value.map m])) ∧
    (deep_merge (Value.map l) (Value.scalar a) = Value.seq [Value.map l, Value.scalar a]) ∧
    (deep_merge (Value.scalar a) (Value.map m) = Value.seq [Value.scalar a, Value.map m]) :=
  ⟨rfl, fun k => mem_keys_mergeMapList m l k,
   fun hnd k vl vm h1 h2 => mergeMapList_lookup_both m l k vl vm hnd h1 h2,
   rfl, rfl, rfl, rfl, rfl⟩

/-- Witness for C4: merging `{a: {x: 1}}` with `{a: {y: 2}}` stores
`{x: 1, y: 2}` under `a`, the spec round-trip example. -/
theorem deep_merge_spec_witness :
    alistLookup (mergeMapList [("a", Value.map [("x", Value.scalar "1")])]
        [("a", Value.map [("y", Value.scalar "2")])]) "a" =
      some (Value.map [("x", Value.scalar "1"), ("y", Value.scalar "2")]) := by
  have h := ((deep_merge_spec [("a", Value.map [("x", Value.scalar "1")])]
      [("a", Value.map [("y", Value.scalar "2")])] [] [] "z").2.2.1) (by simp)
      "a" (Value.map [("x", Value.scalar "1")]) (Value.map [("y", Value.scalar "2")])
      (by simp [alistLookup]) (by simp [alistLookup])
  exact h

/-- The nested `if`/`elif` chain of `glob_target`'s colon branch keeps
exactly the actions satisfying the specification's predicate. -/
theorem globColonFilter_eq_filter (actions : List ActionM) (p1 p2 : List Char) :
    globColonFilter actions p1 p2 = actions.filter (specColonPred p1 p2) := by
  induction actions with
  | nil => rfl
  | cons a rest ih =>
    cases hk : a.kind with
    | file rf =>
      by_cases h1 : (fnm a.server_name p1 || fnm a.pfx p1) = true
      · by_cases h2 : (fnm a.name p2 || fnm a.full_name p2) = true
        · simp [globColonFilter, specColonPred, h1, h2, hk, ih, List.filter_cons]
        · by_cases h3 : fnm rf p2 = true
          · simp [globColonFilter, specColonPred, h1, h2, h3, hk, ih, List.filter_cons]
          · simp [globColonFilter, specColonPred, h1, h2, h3, hk, ih, List.filter_cons]
      · simp [globColonFilter, specColonPred, h1, hk, ih, List.filter_cons]
    | db dbn dbt =>
      by_cases h1 : (fnm a.server_name p1 || fnm a.pfx p1) = true
      · by_cases h2 : (fnm a.name p2 || fnm a.full_name p2) = true
        · simp [globColonFilter, specColonPred, h1, h2, hk, ih, List.filter_cons]
        · by_cases h3 : fnm dbn p2 = true
          · simp [globColonFilter, specColonPred, h1, h2, h3, hk, ih, List.filter_cons]
          · by_cases h4 : fnm dbt p2 = true
            · simp [globColonFilter, specColonPred, h1, h2, h3, h4, hk, ih, List.filter_cons]
            · simp [globColonFilter, specColonPred, h1, h2, h3, h4, hk, ih, List.filter_cons]
      · simp [globColonFilter, specColonPred, h1, hk, ih, List.filter_cons]

/-- Splitting `pattern1:pattern2` at its first colon recovers the two
patterns when `pattern1` holds no colon. -/
theorem splitFirstColon_append (p1 p2 : List Char) (h : ':' ∉ p1) :
    splitFirstColon (p1 ++ ':' :: p2) = (p1, p2) := by
  induction p1 with
  | nil => rfl
  | cons c rest ih =>
    have hc : c ≠ ':' := fun hc => h (hc ▸ List.mem_cons_self _ _)
    have hrest : ':' ∉ rest := fun hm => h (List.mem_cons_of_mem _ hm)
    simp [splitFirstColon, hc, ih hrest]

/-- C7: for an identifier `pattern1:pattern2` (one colon, none inside
the patterns), whatever action list `glob_target` returns is exactly
the set of actions for which `pattern1` glob-matches the server name
or the prefix AND `pattern2` glob-matches one of name, full name,
remote folder (file actions), database name or engine tag (db
actions); and whenever that set is non-empty it is what `glob_target`
returns (an empty set raises "Unknown target" instead). -/
theorem glob_target_colon_spec (actions : List ActionM) (p1 p2 : List Char)
    (h1 : ':' ∉ p1) (h2 : ':' ∉ p2) :
    (∀ l, glob_target actions (p1 ++ ':' :: p2) = Except.ok l →
      l = actions.filter (specColonPred p1 p2)) ∧
    (actions.filter (specColonPred p1 p2) ≠ [] →
      glob_target actions (p1 ++ ':' :: p2) =
        Except.ok (actions.filter (specColonPred p1 p2))) := by
  have hcontains : (p1 ++ ':' :: p2).contains ':' = true := by
    simp
  have hcount : (p1 ++ ':' :: p2).count ':' = 1 := by
    rw [List.count_append, List.count_cons]
    have e1 : p1.count ':' = 0 := List.count_eq_zero.2 h1
    have e2 : p2.count ':' = 0 := List.count_eq_zero.2 h2
    simp [e1, e2]
  unfold glob_target
  rw [if_pos hcontains, if_neg (by omega : ¬ 2 ≤ (p1 ++ ':' :: p2).count ':')]
  dsimp only
  rw [splitFirstColon_append p1 p2 h1, globColonFilter_eq_filter]
  by_cases hres : (actions.filter (specColonPred p1 p2)).isEmpty
  · rw [if_pos hres]
    constructor
    · intro l hl
      exact Except.noConfusion hl
    · intro hne
      exact absurd (List.isEmpty_iff.1 hres) hne
  · rw [if_neg hres]
    constructor
    · intro l hl
      injection hl with h
      exact h.symm
    · intro _
      rfl

/-- Witness for C7: the spec example — identifier `web*:db` against a
`db` action on `web1` and one on `api1` selects only the `web1`
action. -/
theorem glob_target_colon_spec_witness :
    glob_target [⟨"web1", "web1", "db", ActionKind.db "db" "mysql"⟩,
        ⟨"api1", "api1", "db", ActionKind.db "db" "mysql"⟩]
      (String.toList "web*" ++ ':' :: String.toList "db") =
      Except.ok [⟨"web1", "web1", "db", ActionKind.db "db" "mysql"⟩] := by
  have hfilter : List.filter (specColonPred (String.toList "web*") (String.toList "db"))
      [(⟨"web1", "web1", "db", ActionKind.db "db" "mysql"⟩ : ActionM),
       ⟨"api1", "api1", "db", ActionKind.db "db" "mysql"⟩] =
      [⟨"web1", "web1", "db", ActionKind.db "db" "mysql"⟩] := by
    simp [specColonPred, ActionM.full_name, fnm, fnmatchChars, parseClass, scanClose,
      matchClass, List.filter]
  have h := (glob_target_colon_spec [⟨"web1", "web1", "db", ActionKind.db "db" "mysql"⟩,
      ⟨"api1", "api1", "db", ActionKind.db "db" "mysql"⟩]
      (String.toList "web*") (String.toList "db") (by decide) (by decide)).2
      (by rw [hfilter]; simp)
  rw [h, hfilter]

end Backuper
